import Mathlib

/-!
Shallow embedding of the cjsutils interval library.

The embedded code is the current build of the library:
* `Interval` / `IntervalNumber` from src/unnamed/part_004 (the interval module
  whose endpoints carry a closed/open flag), and
* `IntervalSet` from the first class of src/dist/intervalSet.js (the variant
  with the touching-closure merge clause and `chainIntervals`), which the spec
  declares canonical over the older variants in the repository.

JavaScript numbers are modelled as integers extended with the two infinities
(`JsNum`); every endpoint value appearing in the spec's scenarios lives in this
fragment.  Mutating methods that can throw are modelled as `Except String`
valued functions returning the updated object; `Array.prototype.sort` with the
library's comparator is modelled by a stable insertion sort.  JavaScript `===`
on two endpoint objects (used in the `Interval` constructor) is reference
equality; it is passed in explicitly as `aRefEqB`, which is `false` whenever
the two endpoints are separately allocated objects (as in every call site of
the library itself).
-/

deriving instance DecidableEq for Except

/-- Bind on a successful `Except` computation reduces to the continuation. -/
theorem except_ok_bind {e : Type} {a b : Type} (x : a) (f : a → Except e b) :
    (Except.ok x : Except e a) >>= f = f x := rfl

namespace CJS

/-- JavaScript number fragment used by the library: integers and ±Infinity. -/
inductive JsNum where
  | int (n : Int)
  | posInf
  | negInf
deriving DecidableEq, Repr

namespace JsNum

/-- JavaScript `<` on the modelled numbers. -/
def ltb : JsNum → JsNum → Bool
  | int a, int b => a < b
  | int _, posInf => true
  | int _, negInf => false
  | posInf, _ => false
  | negInf, negInf => false
  | negInf, _ => true

/-- JavaScript `>` on the modelled numbers. -/
def gtb (x y : JsNum) : Bool := ltb y x

theorem ltb_irrefl (x : JsNum) : ltb x x = false := by
  cases x <;> simp [ltb]

theorem ltb_trans {x y z : JsNum} (h₁ : ltb x y = true) (h₂ : ltb y z = true) :
    ltb x z = true := by
  cases x <;> cases y <;> cases z <;> simp_all [ltb] <;> omega

theorem eq_of_not_ltb {x y : JsNum} (h₁ : ltb x y = false) (h₂ : ltb y x = false) :
    x = y := by
  cases x <;> cases y <;> simp_all [ltb] <;> omega

theorem ltb_asymm {x y : JsNum} (h : ltb x y = true) : ltb y x = false := by
  cases x <;> cases y <;> simp_all [ltb] <;> omega

theorem ltb_total' {x y : JsNum} (h : ltb x y = false) : ltb y x = true ∨ y = x := by
  by_cases h2 : ltb y x = true
  · exact Or.inl h2
  · exact Or.inr (eq_of_not_ltb (eq_false_of_ne_true h2) h)

end JsNum

/-- A boundary value paired with its closed/open flag (class `IntervalNumber`).
`isClosed` defaults to `true` in the source constructor; the default is written
out explicitly at every use site of the embedding. -/
structure IntervalNumber where
  number : JsNum
  isClosed : Bool
deriving DecidableEq, Repr

/-- An interval: two endpoints in either order plus a free-form name
(class `Interval`; `#a` and `#b` are its private fields, `name` defaults to
"Not Specified"). -/
structure Interval where
  a : IntervalNumber
  b : IntervalNumber
  name : String
deriving DecidableEq, Repr

namespace Interval

/-- Getter `min`: `this.#a.number < this.#b.number ? this.a : this.b`
(so for equal values it returns `b`). -/
def min (i : Interval) : IntervalNumber :=
  if i.a.number.ltb i.b.number then i.a else i.b

/-- Getter `max`: `this.#a.number > this.#b.number ? this.a : this.b`
(so for equal values it returns `b`). -/
def max (i : Interval) : IntervalNumber :=
  if i.a.number.gtb i.b.number then i.a else i.b

/-- Setter `a`: rejects the assignment iff it would make the two endpoint
values equal with both endpoints open, else replaces `#a`. -/
def setA (i : Interval) (value : IntervalNumber) : Except String Interval :=
  if i.b.number = value.number ∧ i.b.isClosed = false ∧ value.isClosed = false then
    .error "Invalid interval. Cannot exclude either minimum and maximum values if they are equal."
  else
    .ok { i with a := value }

/-- Setter `b`: symmetric to `setA`. -/
def setB (i : Interval) (value : IntervalNumber) : Except String Interval :=
  if i.a.number = value.number ∧ i.a.isClosed = false ∧ value.isClosed = false then
    .error "Invalid interval. Cannot exclude either minimum and maximum values if they are equal."
  else
    .ok { i with b := value }

/-- Setter `min`: writes through `a` when `#a.number === min.number`, else
through `b`. -/
def setMin (i : Interval) (value : IntervalNumber) : Except String Interval :=
  if i.a.number = i.min.number then i.setA value else i.setB value

/-- Setter `max`: writes through `a` when `#a.number === max.number`, else
through `b`. -/
def setMax (i : Interval) (value : IntervalNumber) : Except String Interval :=
  if i.a.number = i.max.number then i.setA value else i.setB value

/-- Method `contains(x: IntervalNumber)`: strict bound or equal value with both
the boundary and `x` closed, on each side. -/
def contains (i : Interval) (x : IntervalNumber) : Bool :=
  let lowerBound := i.min.number.ltb x.number ||
    (i.min.number = x.number && i.min.isClosed && x.isClosed)
  let upperBound := x.number.ltb i.max.number ||
    (i.max.number = x.number && i.max.isClosed && x.isClosed)
  lowerBound && upperBound

/-- Method `contains(x: Interval)`: containment of both endpoints. -/
def containsInterval (i x : Interval) : Bool :=
  i.contains x.a && i.contains x.b

/-- Method `overlaps`: any of the four cross endpoint containments. -/
def overlaps (i x : Interval) : Bool :=
  i.contains x.a || i.contains x.b || x.contains i.a || x.contains i.b

/-- The degenerate-point invariant the constructor is meant to maintain:
equal endpoint values force both ends closed. -/
def valid (i : Interval) : Prop :=
  i.a.number = i.b.number → (i.a.isClosed = true ∧ i.b.isClosed = true)

instance (i : Interval) : Decidable i.valid := by unfold valid; infer_instance

end Interval

/-! String encoding.  Strings are worked with as `List Char`; `String.toList`
bridges literals at the theorem level. -/

/-- Decimal digit character, written out digit by digit (the target of
JavaScript number-to-string conversion for one digit). -/
def digitChar : Nat → Char
  | 0 => '0' | 1 => '1' | 2 => '2' | 3 => '3' | 4 => '4'
  | 5 => '5' | 6 => '6' | 7 => '7' | 8 => '8' | _ => '9'

/-- Decimal expansion of a natural number, most significant digit first.
Fuel-driven so that it is structurally recursive; `natChars` supplies
sufficient fuel. -/
def natCharsGo (fuel n : Nat) : List Char :=
  if n < 10 then [digitChar n]
  else
    match fuel with
    | 0 => []
    | f + 1 => natCharsGo f (n / 10) ++ [digitChar (n % 10)]

/-- Decimal expansion of a natural number. -/
def natChars (n : Nat) : List Char := natCharsGo n n

/-- JavaScript number-to-string conversion on the modelled numbers (as used by
template literals in `toString`). -/
def numChars : JsNum → List Char
  | .int n => if n < 0 then '-' :: natChars n.natAbs else natChars n.natAbs
  | .posInf => "Infinity".toList
  | .negInf => "-Infinity".toList

/-- Digit predicate accepted by the modelled `Number()` conversion. -/
def isDigitChar (c : Char) : Bool := '0' ≤ c && c ≤ '9'

/-- Numeric value of a digit character. -/
def digitVal (c : Char) : Nat := c.toNat - 48

/-- Parse an all-digit, non-empty character list to a natural number. -/
def parseNatChars (l : List Char) : Option Nat :=
  if l ≠ [] ∧ l.all isDigitChar then
    some (l.foldl (fun acc c => acc * 10 + digitVal c) 0)
  else none

/-- Whitespace stripped by JavaScript `trim()` (the fragment that can occur in
the library's strings). -/
def isWsChar (c : Char) : Bool := c = ' ' || c = '\t' || c = '\n' || c = '\r'

/-- JavaScript `String.prototype.trim`. -/
def trimChars (l : List Char) : List Char :=
  ((l.dropWhile isWsChar).reverse.dropWhile isWsChar).reverse

/-- JavaScript `String.prototype.split(',')`. -/
def splitComma : List Char → List (List Char)
  | [] => [[]]
  | c :: rest =>
    if c = ',' then [] :: splitComma rest
    else
      match splitComma rest with
      | h :: t => (c :: h) :: t
      | [] => [[c]]

/-- JavaScript `Number()` conversion restricted to the modelled numeric
fragment: trimmed empty string is 0, the Infinity literals, and optionally
signed decimal integers.  Strings denoting non-integer or otherwise exotic
numbers fall outside the modelled fragment and map to `none` (treated like
NaN); no such string arises from the library's own output. -/
def jsNumberOfChars (s : List Char) : Option JsNum :=
  let t := trimChars s
  if t = [] then some (.int 0)
  else if t = "Infinity".toList ∨ t = "+Infinity".toList then some .posInf
  else if t = "-Infinity".toList then some .negInf
  else if t.head? = some '-' then (parseNatChars t.tail).map (fun k => .int (-(k : Int)))
  else if t.head? = some '+' then (parseNatChars t.tail).map (fun k => .int (k : Int))
  else (parseNatChars t).map (fun k => .int (k : Int))

namespace Interval

/-- Method `toString`: prints `#a` then `#b` in stored order with each
endpoint's own bracket. -/
def toStringL (i : Interval) : List Char :=
  (if i.a.isClosed then '[' else '(') ::
    (numChars i.a.number ++ ',' :: ' ' :: numChars i.b.number ++
      [if i.b.isClosed then ']' else ')'])

/-- Static `validIntervalString`. -/
def validIntervalString (interval : List Char) : Bool :=
  match (splitComma interval).map trimChars with
  | [p0, p1] =>
    let a := jsNumberOfChars (p0.drop 1)
    let b := jsNumberOfChars p1.dropLast
    let startSymbolValid := p0.head? = some '(' || p0.head? = some '['
    let endSymbolValid := p1.getLast? = some ')' || p1.getLast? = some ']'
    a.isSome && b.isSome && startSymbolValid && endSymbolValid &&
      (a ≠ b || (a = b && p0.head? = some '[' && p1.getLast? = some ']'))
  | _ => false

/-- Constructor from an `IInterval` structure.  `aRefEqB` models JavaScript
reference equality `interval.a === interval.b` between the two endpoint
objects handed to the constructor; it is `false` whenever the caller allocates
the endpoints separately (every call site in the library does). -/
def ofParts (a b : IntervalNumber) (name : Option String) (aRefEqB : Bool) :
    Except String Interval :=
  if aRefEqB ∧ (a.isClosed = false ∨ b.isClosed = false) then
    .error "Invalid interval. Cannot exclude either minimum and maximum values if they are equal."
  else
    .ok { a := a, b := b, name := name.getD "Not Specified" }

/-- Static `toInterval`: validate, re-split, and build the interval from the
parsed endpoint values and bracket closures. -/
def toInterval (interval : List Char) : Except String Interval :=
  if validIntervalString interval = false then
    .error "Invalid interval string."
  else
    match (splitComma interval).map trimChars with
    | [p0, p1] =>
      match jsNumberOfChars (p0.drop 1), jsNumberOfChars p1.dropLast with
      | some a, some b =>
        ofParts ⟨a, p0.head? = some '['⟩ ⟨b, p1.getLast? = some ']'⟩ none false
      | _, _ => .error "Invalid interval string."
    | _ => .error "Invalid interval string."

/-- Expression `new Interval(interval)` on a structure whose two endpoints are
separately allocated objects: the constructor's degenerate check compares the
endpoint objects by reference, so it cannot fire and construction always
succeeds (`ofParts` with `aRefEqB = false`). -/
def new (a b : IntervalNumber) (name : Option String) : Interval :=
  { a := a, b := b, name := name.getD "Not Specified" }

theorem ofParts_not_aliased (a b : IntervalNumber) (name : Option String) :
    ofParts a b name false = .ok (Interval.new a b name) := by
  simp [ofParts, Interval.new]

end Interval

/-- A set of intervals plus the merge-on-add flag (class `IntervalSet`,
fields `_intervals` and `_mergeAddedInterval`). -/
structure IntervalSet where
  intervals : List Interval
  mergeAddedInterval : Bool
deriving DecidableEq, Repr

namespace IntervalSet

/-- Comparator of static `sort`: ascending by `min.number`, ties broken with a
closed min before an open min. -/
def cmpIntervals (a b : Interval) : Int :=
  if a.min.number.ltb b.min.number then -1
  else if a.min.number.gtb b.min.number then 1
  else if a.min.isClosed && !b.min.isClosed then -1
  else if !a.min.isClosed && b.min.isClosed then 1
  else 0

/-- Boolean "sorts no later than" induced by the comparator. -/
def leB (a b : Interval) : Bool := cmpIntervals a b ≤ 0

/-- Stable insertion used to model `Array.prototype.sort` with the library's
comparator: an element is placed before the first entry it compares `≤ 0`
with, which keeps tied elements in their original order. -/
def insertSorted (x : Interval) : List Interval → List Interval
  | [] => [x]
  | y :: ys => if leB x y then x :: y :: ys else y :: insertSorted x ys

/-- Static `sort` (stable, per the ECMAScript specification). -/
def sortIntervals : List Interval → List Interval
  | [] => []
  | x :: xs => insertSorted x (sortIntervals xs)

/-- The merge condition of `mergeIntervals`: overlap, or exact touching with
opposite closure flags. -/
def mergeCond (current next : Interval) : Bool :=
  current.overlaps next ||
    (current.max.number = next.min.number && current.max.isClosed != next.min.isClosed)

/-- Body of one merge step: the two assignments
`current.min = current.min.number < next.min.number || current.min.isClosed ? current.min : next.min`
and
`current.max = current.max.number > next.max.number || current.max.isClosed ? current.max : next.max`,
each going through the corresponding validating setter, the second one reading
`current.max` after the first assignment. -/
def combineE (current next : Interval) : Except String Interval := do
  let c1 ← current.setMin (if current.min.number.ltb next.min.number || current.min.isClosed
    then current.min else next.min)
  c1.setMax (if c1.max.number.gtb next.max.number || c1.max.isClosed
    then c1.max else next.max)

/-- The splice-and-retry sweep of `mergeIntervals` over an already sorted
array: on a merge the combined interval is re-examined against the following
element (the `i--` in the source); fuel is the initial array length, which
bounds the number of steps since every step shortens the list. -/
def mergeLoopGo : Nat → List Interval → Except String (List Interval)
  | _, [] => .ok []
  | _, [x] => .ok [x]
  | 0, l => .ok l
  | fuel + 1, current :: next :: rest =>
    if mergeCond current next then do
      let c ← combineE current next
      mergeLoopGo fuel (c :: rest)
    else do
      let tail ← mergeLoopGo fuel (next :: rest)
      .ok (current :: tail)

/-- Static `mergeIntervals`: sort, then sweep. -/
def mergeIntervalsE (l : List Interval) : Except String (List Interval) :=
  mergeLoopGo l.length (sortIntervals l)

/-- The constructor: push every (structured) interval, then run the
`mergeAddedInterval` setter, whose true branch merges the stored array. -/
def constructE (parts : List (IntervalNumber × IntervalNumber × Option String))
    (mergeOpt : Option Bool) : Except String IntervalSet := do
  let init := parts.map (fun p => Interval.new p.1 p.2.1 p.2.2)
  let m := mergeOpt.getD true
  let ints ← if m then mergeIntervalsE init else pure init
  .ok ⟨ints, m⟩

/-- Method `addInterval` with a structured argument: push, then merge when the
flag is set (this variant performs no extra sort on the stored array). -/
def addIntervalE (s : IntervalSet) (a b : IntervalNumber) (name : Option String) :
    Except String IntervalSet := do
  let intervalObject := Interval.new a b name
  let l := s.intervals ++ [intervalObject]
  if s.mergeAddedInterval then do
    let m ← mergeIntervalsE l
    .ok ⟨m, s.mergeAddedInterval⟩
  else
    .ok ⟨l, s.mergeAddedInterval⟩

/-- Method `removeInterval` applied to an already built interval object:
drop every stored interval with the same string form. -/
def removeIntervalObj (s : IntervalSet) (intervalObject : Interval) : IntervalSet :=
  ⟨s.intervals.filter (fun r => !(r.toStringL == intervalObject.toStringL)),
    s.mergeAddedInterval⟩

/-- Method `removeInterval` with a structured argument. -/
def removeInterval (s : IntervalSet) (a b : IntervalNumber) (name : Option String) :
    IntervalSet :=
  removeIntervalObj s (Interval.new a b name)

/-- Method `removeIntervalByName`. -/
def removeIntervalByName (s : IntervalSet) (name : String) : IntervalSet :=
  ⟨s.intervals.filter (fun r => !(r.name == name)), s.mergeAddedInterval⟩

/-- Method `clear`. -/
def clear (s : IntervalSet) : IntervalSet := ⟨[], s.mergeAddedInterval⟩

/-- Method `getIntervalsContaining` (a bare number argument is first wrapped
as a closed `IntervalNumber` by the caller-facing overload). -/
def getIntervalsContaining (s : IntervalSet) (x : IntervalNumber) : List Interval :=
  s.intervals.filter (fun r => r.contains x)

/-- Consecutive pairs of a list, for the `for` loops running `i` against
`i + 1`. -/
def adjacentPairs : List Interval → List (Interval × Interval)
  | x :: y :: rest => (x, y) :: adjacentPairs (y :: rest)
  | _ => []

/-- Method `getIntervalGaps`: work on a copy of the stored array, merging it
first when the merge-on-add flag is off, then sort; with an argument emit the
leading, inner and trailing gaps against the overlapping intervals, without
one emit a gap for every adjacent pair of the copy. -/
def getIntervalGapsE (s : IntervalSet) (arg : Option Interval) :
    Except String (List Interval) := do
  let copy := s.intervals
  let copy ← if s.mergeAddedInterval = false then mergeIntervalsE copy else pure copy
  let copy := sortIntervals copy
  match arg with
  | some intervalObject =>
    let overlappingIntervals := copy.filter (fun r => r.overlaps intervalObject)
    match overlappingIntervals with
    | [] => .ok [intervalObject]
    | first :: _ =>
      let leading :=
        if first.contains intervalObject.min then []
        else [Interval.new intervalObject.min
          ⟨first.min.number, !first.min.isClosed⟩ none]
      let inner := (adjacentPairs overlappingIntervals).map (fun p =>
        Interval.new ⟨p.1.max.number, !p.1.max.isClosed⟩
          ⟨p.2.min.number, !p.2.min.isClosed⟩ none)
      let lastI := overlappingIntervals.getLastD first
      let trailing :=
        if lastI.contains intervalObject.max then []
        else [Interval.new ⟨lastI.max.number, !lastI.max.isClosed⟩
          intervalObject.max none]
      .ok (leading ++ inner ++ trailing)
  | none =>
    .ok ((adjacentPairs copy).map (fun p =>
      Interval.new ⟨p.1.max.number, !p.1.max.isClosed⟩
        ⟨p.2.min.number, !p.2.min.isClosed⟩ none))

/-- One pass of `createIntervalGap`'s truncation loops: visit the listed
stored positions in order, run the given endpoint assignment on each, and
remove the (freshly updated) interval's string form from the working
overlapping set. -/
def truncateAtE (upd : Interval → Except String Interval)
    (idxs : List Nat) (stored oset : List Interval) :
    Except String (List Interval × List Interval) :=
  match idxs with
  | [] => .ok (stored, oset)
  | j :: rest =>
    match stored[j]? with
    | some r => do
      let r2 ← upd r
      let stored := stored.set j r2
      let oset := oset.filter (fun o => !(o.toStringL == r2.toStringL))
      truncateAtE upd rest stored oset
    | none => truncateAtE upd rest stored oset

/-- Method `createIntervalGap`: truncate the stored intervals reaching into
the argument from the left or right, then either split a single fully
containing interval in two or remove the remaining overlapping intervals. -/
def createIntervalGapE (s : IntervalSet) (intervalObject : Interval) :
    Except String IntervalSet := do
  let overlappingIntervals := s.intervals.filter (fun r => r.overlaps intervalObject)
  if overlappingIntervals.length > 0 then do
    -- `new IntervalSet({ intervals: overlapping, options: { mergeAddedInterval: false } })`
    -- copies the overlapping intervals without merging or sorting them.
    let oset := overlappingIntervals
    let stored := s.intervals
    let minIdxs := (List.range stored.length).filter (fun j =>
      match stored[j]? with
      | some r => intervalObject.contains r.max && !(intervalObject.contains r.min)
      | none => false)
    let (stored, oset) ← truncateAtE
      (fun r => r.setMax ⟨intervalObject.min.number, !intervalObject.min.isClosed⟩)
      minIdxs stored oset
    let maxIdxs := (List.range stored.length).filter (fun j =>
      match stored[j]? with
      | some r => intervalObject.contains r.min && !(intervalObject.contains r.max)
      | none => false)
    let (stored, oset) ← truncateAtE
      (fun r => r.setMin ⟨intervalObject.max.number, !intervalObject.max.isClosed⟩)
      maxIdxs stored oset
    match oset with
    | [o] =>
      if o.containsInterval intervalObject then do
        let s1 := clear ⟨stored, s.mergeAddedInterval⟩
        let s2 ← addIntervalE s1 o.min
          ⟨intervalObject.min.number, !intervalObject.min.isClosed⟩ none
        addIntervalE s2 ⟨intervalObject.max.number, !intervalObject.max.isClosed⟩
          o.max none
      else
        .ok (oset.foldl removeIntervalObj ⟨stored, s.mergeAddedInterval⟩)
    | _ =>
      .ok (oset.foldl removeIntervalObj ⟨stored, s.mergeAddedInterval⟩)
  else
    .ok s

/-- The pair loop of `chainIntervals` when the merge flag is on: walk the
sorted copy, and for every consecutive pair that does not already exactly
abut, rewrite the stored twin's min (found by string form) to the current
max's value with inverted closure. -/
def chainTrueLoopGo : List Interval → List Interval → Except String (List Interval)
  | current :: next :: rest, stored =>
    if current.max.number != next.min.number || current.max.isClosed == next.min.isClosed then
      match stored.findIdx? (fun r => r.toStringL == next.toStringL) with
      | some j =>
        match stored[j]? with
        | some r => do
          let r2 ← r.setMin ⟨current.max.number, !current.max.isClosed⟩
          chainTrueLoopGo (next :: rest) (stored.set j r2)
        | none => chainTrueLoopGo (next :: rest) stored
      | none => chainTrueLoopGo (next :: rest) stored
    else chainTrueLoopGo (next :: rest) stored
  | _, stored => .ok stored

/-- The pair loop of `chainIntervals` when the merge flag is off: drop copies
whose max falls inside or before the current one (with the `i--` retry),
otherwise extend via the stored twin as in the true branch. -/
def chainElseLoopGo : Nat → List Interval → List Interval → Except String (List Interval)
  | _, [], stored => .ok stored
  | _, [_], stored => .ok stored
  | 0, _, stored => .ok stored
  | fuel + 1, current :: next :: rest, stored =>
    if current.contains next.max || next.max.number.ltb current.max.number then
      chainElseLoopGo fuel (current :: rest) stored
    else if !(current.contains next.max) && current.max.number.ltb next.max.number then
      match stored.findIdx? (fun r => r.toStringL == next.toStringL) with
      | some j =>
        match stored[j]? with
        | some r => do
          let r2 ← r.setMin ⟨current.max.number, !current.max.isClosed⟩
          chainElseLoopGo fuel (next :: rest) (stored.set j r2)
        | none => chainElseLoopGo fuel (next :: rest) stored
      | none => chainElseLoopGo fuel (next :: rest) stored
    else chainElseLoopGo fuel (next :: rest) stored

/-- Method `chainIntervals`: run the branch picked by the merge flag over a
sorted copy, then (in the true branch) assign `mergeAddedInterval = false`
through its setter, whose false branch performs no merge. -/
def chainIntervalsE (s : IntervalSet) : Except String IntervalSet := do
  let intervalsCopy := sortIntervals s.intervals
  if s.mergeAddedInterval then do
    let stored ← chainTrueLoopGo intervalsCopy s.intervals
    .ok ⟨stored, false⟩
  else do
    let stored ← chainElseLoopGo intervalsCopy.length intervalsCopy s.intervals
    .ok ⟨stored, s.mergeAddedInterval⟩

end IntervalSet

/-- Observable mutating operations on an `IntervalSet` (structured
arguments). -/
inductive SetOp where
  | add (a b : IntervalNumber) (name : Option String)
  | remove (a b : IntervalNumber) (name : Option String)
  | removeByName (name : String)
  | clearOp

/-- Apply one operation. -/
def applyOpE (s : IntervalSet) : SetOp → Except String IntervalSet
  | .add a b n => s.addIntervalE a b n
  | .remove a b n => .ok (s.removeInterval a b n)
  | .removeByName n => .ok (s.removeIntervalByName n)
  | .clearOp => .ok s.clear

/-- Construct an `IntervalSet` with merge-on-add enabled from the given
initial intervals, then run a sequence of operations. -/
def runOpsE (init : List (IntervalNumber × IntervalNumber × Option String))
    (ops : List SetOp) : Except String IntervalSet := do
  let s ← IntervalSet.constructE init (some true)
  ops.foldlM applyOpE s

/-! Round-trip facts about the string encoding. -/

theorem isDigitChar_digitChar {d : Nat} (h : d < 10) :
    isDigitChar (digitChar d) = true := by
  interval_cases d <;> decide

theorem digitVal_digitChar {d : Nat} (h : d < 10) :
    digitVal (digitChar d) = d := by
  interval_cases d <;> decide

theorem parseNatChars_eq_some {l : List Char} {n : Nat}
    (h : parseNatChars l = some n) : l ≠ [] ∧ l.all isDigitChar = true := by
  unfold parseNatChars at h
  split at h
  · exact ⟨by tauto, by tauto⟩
  · cases h

theorem parseNatChars_single {d : Nat} (h : d < 10) :
    parseNatChars [digitChar d] = some d := by
  unfold parseNatChars
  rw [if_pos ⟨by simp, by simp [isDigitChar_digitChar h]⟩]
  simp [digitVal_digitChar h]

theorem parseNatChars_append_digit {l : List Char} {n : Nat}
    (h : parseNatChars l = some n) {c : Char} (hc : isDigitChar c = true) :
    parseNatChars (l ++ [c]) = some (n * 10 + digitVal c) := by
  obtain ⟨hne, hall⟩ := parseNatChars_eq_some h
  unfold parseNatChars at h ⊢
  rw [if_pos ⟨hne, hall⟩] at h
  rw [if_pos ⟨by simp, by simp [List.all_append, hall, hc]⟩]
  rw [List.foldl_append]
  simp only [List.foldl_cons, List.foldl_nil]
  injection h with h
  rw [h]

theorem parseNatChars_natCharsGo :
    ∀ (fuel n : Nat), n ≤ fuel → parseNatChars (natCharsGo fuel n) = some n := by
  intro fuel
  induction fuel with
  | zero =>
    intro n hn
    have hn0 : n = 0 := by omega
    subst hn0
    decide
  | succ f ih =>
    intro n hn
    by_cases h10 : n < 10
    · rw [natCharsGo, if_pos h10]
      exact parseNatChars_single h10
    · rw [natCharsGo, if_neg h10]
      have hrec : n / 10 ≤ f := by omega
      have hd : n % 10 < 10 := by omega
      rw [parseNatChars_append_digit (ih (n / 10) hrec) (isDigitChar_digitChar hd)]
      rw [digitVal_digitChar hd]
      congr 1
      omega

theorem parseNatChars_natChars (n : Nat) : parseNatChars (natChars n) = some n :=
  parseNatChars_natCharsGo n n le_rfl

theorem natChars_all_digits (n : Nat) : (natChars n).all isDigitChar = true :=
  (parseNatChars_eq_some (parseNatChars_natChars n)).2

theorem natChars_ne_nil (n : Nat) : natChars n ≠ [] :=
  (parseNatChars_eq_some (parseNatChars_natChars n)).1

theorem digit_not_comma {c : Char} (h : isDigitChar c = true) : c ≠ ',' := by
  intro heq; subst heq; exact absurd h (by decide)

theorem digit_not_ws {c : Char} (h : isDigitChar c = true) : isWsChar c = false := by
  by_contra hw
  have hw := eq_true_of_ne_false hw
  simp only [isWsChar, Bool.or_eq_true, decide_eq_true_eq] at hw
  rcases hw with ((rfl | rfl) | rfl) | rfl <;> exact absurd h (by decide)

theorem digit_not_minus {c : Char} (h : isDigitChar c = true) : c ≠ '-' := by
  intro heq; subst heq; exact absurd h (by decide)

theorem digit_not_plus {c : Char} (h : isDigitChar c = true) : c ≠ '+' := by
  intro heq; subst heq; exact absurd h (by decide)

theorem numChars_int (n : Int) :
    numChars (JsNum.int n) =
      if n < 0 then '-' :: natChars n.natAbs else natChars n.natAbs := rfl

theorem numChars_int_neg {n : Int} (h : n < 0) :
    numChars (JsNum.int n) = '-' :: natChars n.natAbs := by
  rw [numChars_int, if_pos h]

theorem numChars_int_nonneg {n : Int} (h : ¬n < 0) :
    numChars (JsNum.int n) = natChars n.natAbs := by
  rw [numChars_int, if_neg h]

theorem numChars_no_comma (v : JsNum) : ∀ c ∈ numChars v, c ≠ ',' := by
  cases v with
  | int n =>
    intro c hc
    have hdig : ∀ x ∈ natChars n.natAbs, isDigitChar x = true :=
      fun x hx => List.all_eq_true.mp (natChars_all_digits n.natAbs) x hx
    by_cases hneg : n < 0
    · rw [numChars_int_neg hneg] at hc
      rcases List.mem_cons.mp hc with rfl | hc
      · decide
      · exact digit_not_comma (hdig c hc)
    · rw [numChars_int_nonneg hneg] at hc
      exact digit_not_comma (hdig c hc)
  | posInf => decide
  | negInf => decide

theorem numChars_no_ws (v : JsNum) : ∀ c ∈ numChars v, isWsChar c = false := by
  cases v with
  | int n =>
    intro c hc
    have hdig : ∀ x ∈ natChars n.natAbs, isDigitChar x = true :=
      fun x hx => List.all_eq_true.mp (natChars_all_digits n.natAbs) x hx
    by_cases hneg : n < 0
    · rw [numChars_int_neg hneg] at hc
      rcases List.mem_cons.mp hc with rfl | hc
      · decide
      · exact digit_not_ws (hdig c hc)
    · rw [numChars_int_nonneg hneg] at hc
      exact digit_not_ws (hdig c hc)
  | posInf => decide
  | negInf => decide

theorem numChars_ne_nil (v : JsNum) : numChars v ≠ [] := by
  cases v with
  | int n =>
    by_cases hneg : n < 0
    · rw [numChars_int_neg hneg]; simp
    · rw [numChars_int_nonneg hneg]; exact natChars_ne_nil _
  | posInf => decide
  | negInf => decide

theorem dropWhile_ws_eq_self {l : List Char} (h : ∀ c ∈ l, isWsChar c = false) :
    l.dropWhile isWsChar = l := by
  cases l with
  | nil => rfl
  | cons x xs =>
    rw [List.dropWhile_cons, h x (by simp)]
    simp

theorem trimChars_eq_self {l : List Char} (h : ∀ c ∈ l, isWsChar c = false) :
    trimChars l = l := by
  unfold trimChars
  rw [dropWhile_ws_eq_self h,
    dropWhile_ws_eq_self (fun c hc => h c (List.mem_reverse.mp hc)),
    List.reverse_reverse]

theorem trimChars_space_cons {l : List Char} (h : ∀ c ∈ l, isWsChar c = false) :
    trimChars (' ' :: l) = l := by
  unfold trimChars
  rw [List.dropWhile_cons]
  have : isWsChar ' ' = true := by decide
  rw [this]
  simp only [if_true]
  rw [dropWhile_ws_eq_self h,
    dropWhile_ws_eq_self (fun c hc => h c (List.mem_reverse.mp hc)),
    List.reverse_reverse]

theorem splitComma_no_comma {l : List Char} (h : ∀ c ∈ l, c ≠ ',') :
    splitComma l = [l] := by
  induction l with
  | nil => rfl
  | cons x xs ih =>
    unfold splitComma
    rw [if_neg (h x (by simp))]
    rw [ih (fun c hc => h c (by simp [hc]))]

theorem splitComma_append {xs ys : List Char} (h : ∀ c ∈ xs, c ≠ ',') :
    splitComma (xs ++ ',' :: ys) = xs :: splitComma ys := by
  induction xs with
  | nil => simp [splitComma]
  | cons x xs ih =>
    rw [List.cons_append]
    rw [show splitComma (x :: (xs ++ ',' :: ys)) =
        if x = ',' then [] :: splitComma (xs ++ ',' :: ys)
        else
          match splitComma (xs ++ ',' :: ys) with
          | hh :: t => (x :: hh) :: t
          | [] => [[x]]
      from rfl]
    rw [if_neg (h x (by simp)), ih (fun c hc => h c (by simp [hc]))]

theorem jsNumberOfChars_numChars (v : JsNum) :
    jsNumberOfChars (numChars v) = some v := by
  cases v with
  | posInf => decide
  | negInf => decide
  | int n =>
    have htrim : trimChars (numChars (.int n)) = numChars (.int n) :=
      trimChars_eq_self (numChars_no_ws _)
    have hne : numChars (JsNum.int n) ≠ [] := numChars_ne_nil _
    obtain ⟨d, ds, hds⟩ : ∃ d ds, natChars n.natAbs = d :: ds := by
      cases hh : natChars n.natAbs with
      | nil => exact absurd hh (natChars_ne_nil _)
      | cons d ds => exact ⟨d, ds, rfl⟩
    have hddigit : isDigitChar d = true := by
      have hall := natChars_all_digits n.natAbs
      rw [hds] at hall
      exact (List.all_eq_true.mp hall) d (by simp)
    unfold jsNumberOfChars
    rw [htrim, if_neg hne]
    by_cases hneg : n < 0
    · have hform : numChars (JsNum.int n) = '-' :: natChars n.natAbs :=
        numChars_int_neg hneg
      have hinf : ¬(numChars (JsNum.int n) = "Infinity".toList ∨
          numChars (JsNum.int n) = "+Infinity".toList) := by
        rw [hform]
        rintro (h | h) <;>
        · have h2 := congrArg List.head? h
          simp only [List.head?_cons] at h2
          exact absurd h2 (by decide)
      have hninf : numChars (JsNum.int n) ≠ "-Infinity".toList := by
        rw [hform]
        intro h
        have h2 := congrArg List.head? (congrArg List.tail h)
        simp only [List.tail_cons, hds, List.head?_cons] at h2
        have hd : d = 'I' := by
          have h3 : ("-Infinity".toList).tail.head? = some 'I' := by decide
          rw [h3] at h2
          injection h2
        rw [hd] at hddigit
        exact absurd hddigit (by decide)
      rw [if_neg hinf, if_neg hninf]
      have hhead : (numChars (JsNum.int n)).head? = some '-' := by
        rw [hform]; rfl
      rw [if_pos hhead]
      have htail : (numChars (JsNum.int n)).tail = natChars n.natAbs := by
        rw [hform]; rfl
      rw [htail, parseNatChars_natChars]
      show some (JsNum.int (-(n.natAbs : Int))) = some (JsNum.int n)
      congr 1
      congr 1
      omega
    · have hform : numChars (JsNum.int n) = natChars n.natAbs :=
        numChars_int_nonneg hneg
      have hhead : (numChars (JsNum.int n)).head? = some d := by
        rw [hform, hds]; rfl
      have hinf : ¬(numChars (JsNum.int n) = "Infinity".toList ∨
          numChars (JsNum.int n) = "+Infinity".toList) := by
        rintro (h | h) <;>
        · rw [h] at hhead
          have : d = 'I' ∨ d = '+' := by
            revert hhead
            intro hhead
            first
            | exact Or.inl (by
                have h3 : ("Infinity".toList).head? = some 'I' := by decide
                rw [h3] at hhead; injection hhead with hh; exact hh.symm)
            | exact Or.inr (by
                have h3 : ("+Infinity".toList).head? = some '+' := by decide
                rw [h3] at hhead; injection hhead with hh; exact hh.symm)
          rcases this with rfl | rfl <;> exact absurd hddigit (by decide)
      have hninf : numChars (JsNum.int n) ≠ "-Infinity".toList := by
        intro h
        rw [h] at hhead
        have h3 : ("-Infinity".toList).head? = some '-' := by decide
        rw [h3] at hhead
        injection hhead with hh
        exact digit_not_minus hddigit hh.symm
      rw [if_neg hinf, if_neg hninf]
      have hm : (numChars (JsNum.int n)).head? ≠ some '-' := by
        rw [hhead]
        intro h
        injection h with hh
        exact digit_not_minus hddigit hh
      have hp : (numChars (JsNum.int n)).head? ≠ some '+' := by
        rw [hhead]
        intro h
        injection h with hh
        exact digit_not_plus hddigit hh
      rw [if_neg hm, if_neg hp, hform, parseNatChars_natChars]
      show some (JsNum.int (n.natAbs : Int)) = some (JsNum.int n)
      congr 1
      congr 1
      omega

theorem bracket_not_comma (b : Bool) (l r : Char) (h : l ≠ ',') (h2 : r ≠ ',') :
    (if b then l else r) ≠ ',' := by
  split <;> assumption

theorem bracket_not_ws (b : Bool) (l r : Char) (h : isWsChar l = false)
    (h2 : isWsChar r = false) : isWsChar (if b then l else r) = false := by
  split <;> assumption

theorem Interval.toStringL_eq (i : Interval) :
    i.toStringL = ((if i.a.isClosed then '[' else '(') :: numChars i.a.number) ++
      ',' :: (' ' :: (numChars i.b.number ++
        [if i.b.isClosed then ']' else ')'])) := by
  simp [Interval.toStringL]

/-- Splitting and trimming the printed form of an interval gives back the
bracketed first endpoint and the second endpoint with its bracket. -/
theorem parts_toStringL (i : Interval) :
    (splitComma i.toStringL).map trimChars =
      [(if i.a.isClosed then '[' else '(') :: numChars i.a.number,
       numChars i.b.number ++ [if i.b.isClosed then ']' else ')']] := by
  have hxs : ∀ c ∈ (if i.a.isClosed then '[' else '(') :: numChars i.a.number,
      c ≠ ',' := by
    intro c hc
    rcases List.mem_cons.mp hc with rfl | hc
    · exact bracket_not_comma _ _ _ (by decide) (by decide)
    · exact numChars_no_comma _ c hc
  have hys0 : ∀ c ∈ numChars i.b.number ++ [if i.b.isClosed then ']' else ')'],
      c ≠ ',' := by
    intro c hc
    rcases List.mem_append.mp hc with hc | hc
    · exact numChars_no_comma _ c hc
    · simp only [List.mem_singleton] at hc
      subst hc
      exact bracket_not_comma _ _ _ (by decide) (by decide)
  have hys : ∀ c ∈ ' ' :: (numChars i.b.number ++
      [if i.b.isClosed then ']' else ')']), c ≠ ',' := by
    intro c hc
    rcases List.mem_cons.mp hc with rfl | hc
    · decide
    · exact hys0 c hc
  have h0 : ∀ c ∈ (if i.a.isClosed then '[' else '(') :: numChars i.a.number,
      isWsChar c = false := by
    intro c hc
    rcases List.mem_cons.mp hc with rfl | hc
    · exact bracket_not_ws _ _ _ (by decide) (by decide)
    · exact numChars_no_ws _ c hc
  have h1 : ∀ c ∈ numChars i.b.number ++ [if i.b.isClosed then ']' else ')'],
      isWsChar c = false := by
    intro c hc
    rcases List.mem_append.mp hc with hc | hc
    · exact numChars_no_ws _ c hc
    · simp only [List.mem_singleton] at hc
      subst hc
      exact bracket_not_ws _ _ _ (by decide) (by decide)
  rw [Interval.toStringL_eq, splitComma_append hxs, splitComma_no_comma hys]
  simp only [List.map_cons, List.map_nil]
  rw [trimChars_eq_self h0, trimChars_space_cons h1]

/-- The printed form of a valid interval passes `validIntervalString`. -/
theorem validIntervalString_toStringL (i : Interval) (hv : i.valid) :
    Interval.validIntervalString i.toStringL = true := by
  unfold Interval.validIntervalString
  rw [parts_toStringL]
  dsimp only
  have hd : ((if i.a.isClosed then '[' else '(') :: numChars i.a.number).drop 1 =
      numChars i.a.number := rfl
  have hdl : (numChars i.b.number ++
      [if i.b.isClosed then ']' else ')']).dropLast = numChars i.b.number := by
    rw [List.dropLast_concat]
  have hh : ((if i.a.isClosed then '[' else '(') :: numChars i.a.number).head? =
      some (if i.a.isClosed then '[' else '(') := rfl
  have hg : (numChars i.b.number ++
      [if i.b.isClosed then ']' else ')']).getLast? =
      some (if i.b.isClosed then ']' else ')') := by
    rw [List.getLast?_concat]
  rw [hd, hdl, hh, hg, jsNumberOfChars_numChars, jsNumberOfChars_numChars]
  by_cases heq : i.a.number = i.b.number
  · obtain ⟨hA, hB⟩ := hv heq
    rw [heq, hA, hB]
    simp
  · rcases Bool.eq_false_or_eq_true i.a.isClosed with hA | hA <;>
      rcases Bool.eq_false_or_eq_true i.b.isClosed with hB | hB <;>
      rw [hA, hB] <;> simp [heq]

/-- Parsing the printed form of a valid interval restores both endpoints
exactly (with the default name). -/
theorem toInterval_toStringL (i : Interval) (hv : i.valid) :
    Interval.toInterval i.toStringL =
      .ok { a := i.a, b := i.b, name := "Not Specified" } := by
  unfold Interval.toInterval
  rw [validIntervalString_toStringL i hv]
  rw [if_neg (by simp)]
  rw [parts_toStringL]
  dsimp only
  have hdl : (numChars i.b.number ++
      [if i.b.isClosed then ']' else ')']).dropLast = numChars i.b.number := by
    rw [List.dropLast_concat]
  have hg : (numChars i.b.number ++
      [if i.b.isClosed then ']' else ')']).getLast? =
      some (if i.b.isClosed then ']' else ')') := by
    rw [List.getLast?_concat]
  rw [show ((if i.a.isClosed then '[' else '(') :: numChars i.a.number).drop 1 =
      numChars i.a.number from rfl]
  rw [hdl]
  rw [jsNumberOfChars_numChars, jsNumberOfChars_numChars]
  rw [show ((if i.a.isClosed then '[' else '(') :: numChars i.a.number).head? =
      some (if i.a.isClosed then '[' else '(') from rfl]
  rw [hg]
  dsimp only
  rw [Interval.ofParts_not_aliased]
  have ha : (⟨i.a.number,
      decide (some (if i.a.isClosed then '[' else '(') = some '[')⟩ :
      IntervalNumber) = i.a := by
    rcases Bool.eq_false_or_eq_true i.a.isClosed with hA | hA <;>
      rw [hA] <;> cases hia : i.a with
      | mk nn cc => simp_all
  have hb : (⟨i.b.number,
      decide (some (if i.b.isClosed then ']' else ')') = some ']')⟩ :
      IntervalNumber) = i.b := by
    rcases Bool.eq_false_or_eq_true i.b.isClosed with hB | hB <;>
      rw [hB] <;> cases hib : i.b with
      | mk nn cc => simp_all
  rw [show Interval.new
      ⟨i.a.number, decide (some (if i.a.isClosed then '[' else '(') = some '[')⟩
      ⟨i.b.number, decide (some (if i.b.isClosed then ']' else ')') = some ']')⟩
      none =
      ⟨⟨i.a.number, decide (some (if i.a.isClosed then '[' else '(') = some '[')⟩,
       ⟨i.b.number, decide (some (if i.b.isClosed then ']' else ')') = some ']')⟩,
       "Not Specified"⟩ from rfl]
  rw [ha, hb]

/-- A point (endpoint) is covered by a list of intervals when some member
contains it. -/
def covered (l : List Interval) (x : IntervalNumber) : Bool :=
  l.any (fun i => i.contains x)

/-- Closed endpoint at an integer value. -/
def icl (n : Int) : IntervalNumber := ⟨.int n, true⟩

/-- Open endpoint at an integer value. -/
def iop (n : Int) : IntervalNumber := ⟨.int n, false⟩

/-! Order facts about the sort comparator, and invariant lemmas for the merge
sweep. -/

namespace Interval

theorem min_def (i : Interval) :
    i.min = if i.a.number.ltb i.b.number then i.a else i.b := rfl

theorem max_def (i : Interval) :
    i.max = if i.a.number.gtb i.b.number then i.a else i.b := rfl

theorem min_eq_ab (i : Interval) : i.min = i.a ∨ i.min = i.b := by
  unfold min; split <;> simp

theorem max_eq_ab (i : Interval) : i.max = i.a ∨ i.max = i.b := by
  unfold max; split <;> simp

theorem ltb_a_min (i : Interval) : i.a.number.ltb i.min.number = false := by
  unfold min; split
  case isTrue => exact JsNum.ltb_irrefl _
  case isFalse h => simpa using h

theorem ltb_b_min (i : Interval) : i.b.number.ltb i.min.number = false := by
  unfold min; split
  case isTrue h => exact JsNum.ltb_asymm h
  case isFalse => exact JsNum.ltb_irrefl _

theorem ltb_max_a (i : Interval) : i.max.number.ltb i.a.number = false := by
  unfold max; split
  case isTrue => exact JsNum.ltb_irrefl _
  case isFalse h => simpa [JsNum.gtb] using h

theorem ltb_max_b (i : Interval) : i.max.number.ltb i.b.number = false := by
  unfold max; split
  case isTrue h => exact JsNum.ltb_asymm (by simpa [JsNum.gtb] using h)
  case isFalse => exact JsNum.ltb_irrefl _

theorem min_isClosed_of_valid_degenerate {i : Interval} (hv : i.valid)
    (hdeg : i.a.number = i.b.number) : i.min.isClosed = true := by
  rcases min_eq_ab i with h | h <;> rw [h] <;> simp [hv hdeg]

theorem max_isClosed_of_valid_degenerate {i : Interval} (hv : i.valid)
    (hdeg : i.a.number = i.b.number) : i.max.isClosed = true := by
  rcases max_eq_ab i with h | h <;> rw [h] <;> simp [hv hdeg]

/-- `setMin` with a value whose number equals the current min's number never
throws for a valid interval; it keeps the max endpoint and the validity, and
the new min is the assigned value or the old min. -/
theorem setMin_same_number_ok (c : Interval) (hc : c.valid) (v : IntervalNumber)
    (hnum : v.number = c.min.number)
    (hdegv : c.a.number = c.b.number → v.isClosed = true) :
    ∃ r, c.setMin v = .ok r ∧ r.valid ∧ (r.min = v ∨ r.min = c.min) ∧
      r.max = c.max := by
  unfold setMin
  by_cases ha : c.a.number = c.min.number
  · rw [if_pos ha]
    have hnum' : v.number = c.a.number := by rw [hnum, ha]
    have hnoerr : ¬(c.b.number = v.number ∧ c.b.isClosed = false ∧ v.isClosed = false) := by
      rintro ⟨h1, h2, _⟩
      have hdeg : c.a.number = c.b.number := by rw [h1, hnum']
      simp [(hc hdeg).2] at h2
    refine ⟨{ c with a := v }, by simp [setA, hnoerr], ?_, ?_, ?_⟩
    · intro hdeg
      simp only at hdeg
      have hdeg0 : c.a.number = c.b.number := by rw [← hnum', hdeg]
      exact ⟨hdegv hdeg0, (hc hdeg0).2⟩
    · rw [min_def, min_def]
      simp only
      rw [hnum']
      by_cases hab : c.a.number.ltb c.b.number = true
      · rw [if_pos hab]; exact Or.inl rfl
      · rw [if_neg hab, if_neg hab]; exact Or.inr rfl
    · have hba : JsNum.ltb c.b.number c.a.number = false := by
        have := ltb_b_min c
        rw [← ha] at this
        exact this
      rw [max_def, max_def]
      simp only
      rw [hnum']
      simp only [JsNum.gtb, hba, if_neg]
      simp
  · rw [if_neg ha]
    have hminb : c.min = c.b := by
      rcases min_eq_ab c with h | h
      · exact absurd (by rw [h]) ha
      · exact h
    have hnum'' : v.number = c.b.number := by rw [hnum, hminb]
    have hnoerr : ¬(c.a.number = v.number ∧ c.a.isClosed = false ∧ v.isClosed = false) := by
      rintro ⟨h1, _, _⟩
      exact ha (by rw [h1, hnum])
    have hlt0 : c.a.number.ltb c.b.number = false := by
      by_contra h
      have h := eq_true_of_ne_false h
      have hmina : c.min = c.a := by rw [min_def, if_pos h]
      exact ha (by rw [hmina])
    have hgt0 : JsNum.ltb c.b.number c.a.number = true := by
      by_contra h
      have h := eq_false_of_ne_true h
      exact ha (by rw [JsNum.eq_of_not_ltb hlt0 h, hminb])
    refine ⟨{ c with b := v }, by simp [setB, hnoerr], ?_, ?_, ?_⟩
    · intro hdeg
      simp only at hdeg
      exact absurd (by rw [hdeg, hnum]) ha
    · left
      rw [min_def]
      simp only
      rw [hnum'', hlt0]
      simp
    · rw [max_def, max_def]
      simp only
      rw [hnum'']
      simp only [JsNum.gtb, hgt0]
      simp

/-- `setMax` with a value whose number is not below the current max's number
never throws for a valid interval; it keeps the min endpoint and validity. -/
theorem setMax_ge_ok (c : Interval) (hc : c.valid) (v : IntervalNumber)
    (hge : JsNum.ltb v.number c.max.number = false)
    (hdegv : c.a.number = c.b.number → v.isClosed = true) :
    ∃ r, c.setMax v = .ok r ∧ r.valid ∧ r.min = c.min := by
  unfold setMax
  by_cases ha : c.a.number = c.max.number
  · rw [if_pos ha]
    have hbmax : JsNum.ltb c.max.number c.b.number = false := ltb_max_b c
    have hnoerr : ¬(c.b.number = v.number ∧ c.b.isClosed = false ∧ v.isClosed = false) := by
      rintro ⟨h1, h2, _⟩
      have hvb : JsNum.ltb c.b.number c.max.number = false := by rw [h1]; exact hge
      have hdeg : c.a.number = c.b.number := by
        rw [ha, JsNum.eq_of_not_ltb hbmax hvb]
      simp [(hc hdeg).2] at h2
    have hab : c.a.number.ltb c.b.number = false := by
      have := ltb_max_b c; rw [← ha] at this; exact this
    have hvb2 : v.number.ltb c.b.number = false := by
      by_contra h
      have h := eq_true_of_ne_false h
      rcases JsNum.ltb_total' hbmax with hlt | heq
      · exact absurd (JsNum.ltb_trans h hlt) (by simp [hge])
      · rw [heq] at h
        exact absurd h (by simp [hge])
    refine ⟨{ c with a := v }, by simp [setA, hnoerr], ?_, ?_⟩
    · intro hdeg
      simp only at hdeg
      have hmaxb : c.max.number = c.b.number := by
        refine JsNum.eq_of_not_ltb hbmax ?_
        rw [← hdeg]; exact hge
      have hdeg0 : c.a.number = c.b.number := by rw [ha, hmaxb]
      exact ⟨hdegv hdeg0, (hc hdeg0).2⟩
    · rw [min_def, min_def]
      simp only
      rw [hvb2, hab]
      simp
  · rw [if_neg ha]
    have hmaxb : c.max = c.b := by
      rcases max_eq_ab c with h | h
      · exact absurd (by rw [h]) ha
      · exact h
    have hba : JsNum.ltb c.b.number c.a.number = false := by
      have := ltb_max_a c; rw [hmaxb] at this; exact this
    have hab : c.a.number.ltb c.b.number = true := by
      by_contra h
      have h := eq_false_of_ne_true h
      exact ha (by rw [JsNum.eq_of_not_ltb h hba, hmaxb])
    have hnoerr : ¬(c.a.number = v.number ∧ c.a.isClosed = false ∧ v.isClosed = false) := by
      rintro ⟨h1, _, _⟩
      have h2 : JsNum.ltb c.a.number c.max.number = false := by rw [h1]; exact hge
      exact ha (JsNum.eq_of_not_ltb h2 (ltb_max_a c))
    have hav : c.a.number.ltb v.number = true := by
      rw [hmaxb] at hge
      rcases JsNum.ltb_total' hge with hlt | heq
      · exact JsNum.ltb_trans hab hlt
      · rw [← heq]; exact hab
    refine ⟨{ c with b := v }, by simp [setB, hnoerr], ?_, ?_⟩
    · intro hdeg
      simp only at hdeg
      rw [hdeg] at hav
      simp [JsNum.ltb_irrefl] at hav
    · rw [min_def, min_def]
      simp only
      rw [hav, hab]
      simp

end Interval

namespace IntervalSet

theorem leB_iff (a b : Interval) : leB a b = true ↔
    (a.min.number.ltb b.min.number = true ∨
     (a.min.number = b.min.number ∧
       (a.min.isClosed = true ∨ b.min.isClosed = false))) := by
  unfold leB cmpIntervals
  split
  case isTrue h => simp [h]
  case isFalse h =>
    have h := eq_false_of_ne_true (by simpa using h)
    split
    case isTrue h2 =>
      have h2' : b.min.number.ltb a.min.number = true := by simpa [JsNum.gtb] using h2
      constructor
      · intro hle; simp at hle
      · rintro (hlt | ⟨heq, _⟩)
        · rw [hlt] at h; cases h
        · rw [heq] at h2'; simp [JsNum.ltb_irrefl] at h2'
    case isFalse h2 =>
      have h2' : b.min.number.ltb a.min.number = false := by
        have := eq_false_of_ne_true (by simpa using h2)
        simpa [JsNum.gtb] using this
      have heq : a.min.number = b.min.number := JsNum.eq_of_not_ltb h h2'
      split
      case isTrue h3 =>
        simp only [Bool.and_eq_true, Bool.not_eq_true'] at h3
        simp [heq, h3]
      case isFalse h3 =>
        split
        case isTrue h4 =>
          simp only [Bool.and_eq_true, Bool.not_eq_true'] at h4
          simp [h, heq, h4.1, h4.2, JsNum.ltb_irrefl]
        case isFalse h4 =>
          simp only [Bool.and_eq_true, Bool.not_eq_true', not_and] at h3 h4
          simp only [heq, true_and]
          constructor
          · intro _
            refine Or.inr ?_
            rcases Bool.eq_false_or_eq_true a.min.isClosed with hA | hA
            · exact Or.inl hA
            · rcases Bool.eq_false_or_eq_true b.min.isClosed with hB | hB
              · exact absurd hB (h4 hA)
              · exact Or.inr hB
          · intro _; simp

theorem leB_refl (a : Interval) : leB a a = true := by
  rw [leB_iff]
  rcases Bool.eq_false_or_eq_true a.min.isClosed with h | h
  · exact Or.inr ⟨rfl, Or.inl h⟩
  · exact Or.inr ⟨rfl, Or.inr h⟩

theorem leB_total (a b : Interval) : leB a b = true ∨ leB b a = true := by
  rw [leB_iff, leB_iff]
  by_cases h1 : a.min.number.ltb b.min.number = true
  · exact Or.inl (Or.inl h1)
  · have h1 := eq_false_of_ne_true h1
    rcases JsNum.ltb_total' h1 with h2 | h2
    · exact Or.inr (Or.inl h2)
    · rcases Bool.eq_false_or_eq_true a.min.isClosed with hA | hA
      · exact Or.inl (Or.inr ⟨h2.symm, Or.inl hA⟩)
      · exact Or.inr (Or.inr ⟨h2, Or.inr hA⟩)

theorem leB_elim_ltb {a b : Interval} (h : leB a b = true) :
    b.min.number.ltb a.min.number = false := by
  rw [leB_iff] at h
  rcases h with h | ⟨heq, _⟩
  · exact JsNum.ltb_asymm h
  · rw [heq]; exact JsNum.ltb_irrefl _

theorem leB_trans {a b c : Interval} (h1 : leB a b = true) (h2 : leB b c = true) :
    leB a c = true := by
  rw [leB_iff] at h1 h2 ⊢
  rcases h1 with hlt1 | ⟨heq1, hcl1⟩
  · rcases h2 with hlt2 | ⟨heq2, _⟩
    · exact Or.inl (JsNum.ltb_trans hlt1 hlt2)
    · exact Or.inl (by rw [← heq2]; exact hlt1)
  · rcases h2 with hlt2 | ⟨heq2, hcl2⟩
    · exact Or.inl (by rw [heq1]; exact hlt2)
    · refine Or.inr ⟨heq1.trans heq2, ?_⟩
      rcases hcl1 with hA | hB
      · exact Or.inl hA
      · rcases hcl2 with hB2 | hC
        · rw [hB] at hB2; cases hB2
        · exact Or.inr hC

theorem leB_congr_left {a a2 b : Interval} (h : a2.min = a.min) :
    leB a2 b = leB a b := by
  unfold leB cmpIntervals
  rw [h]

theorem leB_congr_right {a b b2 : Interval} (h : b2.min = b.min) :
    leB a b2 = leB a b := by
  unfold leB cmpIntervals
  rw [h]

/-- The sorted predicate of the claim: ascending by min with the closed-first
tie-break, as the comparator orders intervals. -/
def SortedLe (l : List Interval) : Prop :=
  l.Pairwise (fun x y => leB x y = true)

theorem mem_insertSorted {x y : Interval} {l : List Interval} :
    y ∈ insertSorted x l ↔ y = x ∨ y ∈ l := by
  induction l with
  | nil => simp [insertSorted]
  | cons z zs ih =>
    unfold insertSorted
    split
    · simp [or_comm, or_assoc, or_left_comm]
    · simp only [List.mem_cons, ih]
      tauto

theorem sortedLe_insertSorted {x : Interval} {l : List Interval}
    (h : SortedLe l) : SortedLe (insertSorted x l) := by
  induction l with
  | nil => simp [insertSorted, SortedLe]
  | cons z zs ih =>
    unfold insertSorted
    split
    case isTrue hle =>
      refine List.Pairwise.cons ?_ h
      intro y hy
      rcases List.mem_cons.mp hy with rfl | hy
      · exact hle
      · exact leB_trans hle (List.rel_of_pairwise_cons h hy)
    case isFalse hle =>
      have hzx : leB z x = true := by
        rcases leB_total x z with h1 | h1
        · exact absurd h1 (by simp [hle])
        · exact h1
      refine List.Pairwise.cons ?_ (ih (List.Pairwise.of_cons h))
      intro y hy
      rcases mem_insertSorted.mp hy with rfl | hy
      · exact hzx
      · exact List.rel_of_pairwise_cons h hy

theorem mem_sortIntervals {y : Interval} {l : List Interval} :
    y ∈ sortIntervals l ↔ y ∈ l := by
  induction l with
  | nil => simp [sortIntervals]
  | cons z zs ih => simp [sortIntervals, mem_insertSorted, ih]

theorem sortedLe_sortIntervals (l : List Interval) : SortedLe (sortIntervals l) := by
  induction l with
  | nil => exact List.Pairwise.nil
  | cons z zs ih => exact sortedLe_insertSorted ih

theorem length_insertSorted (x : Interval) (l : List Interval) :
    (insertSorted x l).length = l.length + 1 := by
  induction l with
  | nil => simp [insertSorted]
  | cons z zs ih =>
    unfold insertSorted
    split <;> simp [ih]

theorem length_sortIntervals (l : List Interval) :
    (sortIntervals l).length = l.length := by
  induction l with
  | nil => rfl
  | cons z zs ih => simp [sortIntervals, length_insertSorted, ih]

/-- One merge step never throws on a valid sorted pair, keeps validity, and
the surviving interval's min is one of the two mins. -/
theorem combineE_ok (c n : Interval) (hc : c.valid) (hn : n.valid)
    (hle : leB c n = true) :
    ∃ r, combineE c n = .ok r ∧ r.valid ∧ (r.min = c.min ∨ r.min = n.min) := by
  unfold combineE
  by_cases h1 : (c.min.number.ltb n.min.number || c.min.isClosed) = true
  · rw [if_pos h1]
    obtain ⟨c1, hset, hval1, hmin1, hmax1⟩ :=
      Interval.setMin_same_number_ok c hc c.min rfl
        (fun hdeg => Interval.min_isClosed_of_valid_degenerate hc hdeg)
    rw [hset]
    simp only [except_ok_bind]
    have hmin1' : c1.min = c.min := by rcases hmin1 with h | h <;> exact h
    by_cases h2 : (c1.max.number.gtb n.max.number || c1.max.isClosed) = true
    · rw [if_pos h2]
      obtain ⟨r, hset2, hval2, hmin2⟩ :=
        Interval.setMax_ge_ok c1 hval1 c1.max (JsNum.ltb_irrefl _)
          (fun hdeg => Interval.max_isClosed_of_valid_degenerate hval1 hdeg)
      exact ⟨r, hset2, hval2, Or.inl (by rw [hmin2, hmin1'])⟩
    · rw [if_neg h2]
      simp only [Bool.or_eq_true, not_or, Bool.not_eq_true] at h2
      obtain ⟨hgt, hcl⟩ := h2
      obtain ⟨r, hset2, hval2, hmin2⟩ :=
        Interval.setMax_ge_ok c1 hval1 n.max (by simpa [JsNum.gtb] using hgt)
          (fun hdeg => by
            have := Interval.max_isClosed_of_valid_degenerate hval1 hdeg
            rw [this] at hcl; cases hcl)
      exact ⟨r, hset2, hval2, Or.inl (by rw [hmin2, hmin1'])⟩
  · rw [if_neg h1]
    simp only [Bool.or_eq_true, not_or, Bool.not_eq_true] at h1
    obtain ⟨hlt, hcl⟩ := h1
    have heq : n.min.number = c.min.number :=
      (JsNum.eq_of_not_ltb hlt (leB_elim_ltb hle)).symm
    obtain ⟨c1, hset, hval1, hmin1, hmax1⟩ :=
      Interval.setMin_same_number_ok c hc n.min heq
        (fun hdeg => by
          have := Interval.min_isClosed_of_valid_degenerate hc hdeg
          rw [this] at hcl; cases hcl)
    rw [hset]
    simp only [except_ok_bind]
    have hmin1' : c1.min = n.min ∨ c1.min = c.min := hmin1
    by_cases h2 : (c1.max.number.gtb n.max.number || c1.max.isClosed) = true
    · rw [if_pos h2]
      obtain ⟨r, hset2, hval2, hmin2⟩ :=
        Interval.setMax_ge_ok c1 hval1 c1.max (JsNum.ltb_irrefl _)
          (fun hdeg => Interval.max_isClosed_of_valid_degenerate hval1 hdeg)
      refine ⟨r, hset2, hval2, ?_⟩
      rw [hmin2]
      tauto
    · rw [if_neg h2]
      simp only [Bool.or_eq_true, not_or, Bool.not_eq_true] at h2
      obtain ⟨hgt, hcl2⟩ := h2
      obtain ⟨r, hset2, hval2, hmin2⟩ :=
        Interval.setMax_ge_ok c1 hval1 n.max (by simpa [JsNum.gtb] using hgt)
          (fun hdeg => by
            have := Interval.max_isClosed_of_valid_degenerate hval1 hdeg
            rw [this] at hcl2; cases hcl2)
      refine ⟨r, hset2, hval2, ?_⟩
      rw [hmin2]
      tauto

/-- The merge sweep never throws on a sorted list of valid intervals, and its
output is sorted, valid, and takes each min from some input interval. -/
theorem mergeLoopGo_ok : ∀ (fuel : Nat) (l : List Interval),
    l.length ≤ fuel + 1 → SortedLe l → (∀ i ∈ l, i.valid) →
    ∃ r, mergeLoopGo fuel l = .ok r ∧ SortedLe r ∧ (∀ i ∈ r, i.valid) ∧
      (∀ y ∈ r, ∃ x ∈ l, y.min = x.min) := by
  intro fuel
  induction fuel with
  | zero =>
    intro l hlen hs hv
    match l with
    | [] => exact ⟨[], rfl, List.Pairwise.nil, by simp, by simp⟩
    | [x] => exact ⟨[x], rfl, hs, hv, by simp⟩
    | a :: b :: rest =>
      exfalso
      simp only [List.length_cons] at hlen
      omega
  | succ fuel ih =>
    intro l hlen hs hv
    match l with
    | [] => exact ⟨[], rfl, List.Pairwise.nil, by simp, by simp⟩
    | [x] => exact ⟨[x], rfl, hs, hv, by simp⟩
    | current :: next :: rest =>
      simp only [mergeLoopGo]
      by_cases hm : mergeCond current next = true
      · rw [if_pos hm]
        obtain ⟨c2, hcomb, hval2, hmin2⟩ :=
          combineE_ok current next (hv _ (by simp)) (hv _ (by simp))
            (List.rel_of_pairwise_cons hs (by simp))
        rw [hcomb]
        simp only [except_ok_bind]
        have hsrest : SortedLe rest :=
          List.Pairwise.of_cons (List.Pairwise.of_cons hs)
        have hs2 : SortedLe (c2 :: rest) := by
          refine List.Pairwise.cons ?_ hsrest
          intro y hy
          rcases hmin2 with h | h
          · rw [leB_congr_left h]
            exact List.rel_of_pairwise_cons hs (by simp [hy])
          · rw [leB_congr_left h]
            exact List.rel_of_pairwise_cons (List.Pairwise.of_cons hs) hy
        have hv2 : ∀ i ∈ c2 :: rest, i.valid := by
          intro i hi
          rcases List.mem_cons.mp hi with rfl | hi
          · exact hval2
          · exact hv _ (by simp [hi])
        obtain ⟨r, hr, hrs, hrv, hrm⟩ := ih (c2 :: rest)
          (by simp at hlen ⊢; omega) hs2 hv2
        refine ⟨r, hr, hrs, hrv, ?_⟩
        intro y hy
        obtain ⟨x, hx, hxy⟩ := hrm y hy
        rcases List.mem_cons.mp hx with rfl | hx
        · rcases hmin2 with h | h
          · exact ⟨current, by simp, by rw [hxy, h]⟩
          · exact ⟨next, by simp, by rw [hxy, h]⟩
        · exact ⟨x, by simp [hx], hxy⟩
      · rw [if_neg hm]
        obtain ⟨r, hr, hrs, hrv, hrm⟩ := ih (next :: rest)
          (by simp at hlen ⊢; omega) (List.Pairwise.of_cons hs)
          (fun i hi => hv i (List.mem_cons_of_mem current hi))
        rw [hr]
        simp only [except_ok_bind]
        refine ⟨current :: r, rfl, ?_, ?_, ?_⟩
        · refine List.Pairwise.cons ?_ hrs
          intro y hy
          obtain ⟨x, hx, hxy⟩ := hrm y hy
          rw [leB_congr_right hxy]
          exact List.rel_of_pairwise_cons hs (by simp at hx ⊢; tauto)
        · intro i hi
          rcases List.mem_cons.mp hi with rfl | hi
          · exact hv _ (by simp)
          · exact hrv _ hi
        · intro y hy
          rcases List.mem_cons.mp hy with rfl | hy
          · exact ⟨y, by simp, rfl⟩
          · obtain ⟨x, hx, hxy⟩ := hrm y hy
            exact ⟨x, by simp at hx ⊢; tauto, hxy⟩

/-- `mergeIntervals` never throws on valid intervals, and its output is sorted
and valid. -/
theorem mergeIntervalsE_ok (l : List Interval) (hv : ∀ i ∈ l, i.valid) :
    ∃ r, mergeIntervalsE l = .ok r ∧ SortedLe r ∧ ∀ i ∈ r, i.valid := by
  obtain ⟨r, hr, hrs, hrv, _⟩ := mergeLoopGo_ok l.length (sortIntervals l)
    (by rw [length_sortIntervals]; omega) (sortedLe_sortIntervals l)
    (fun i hi => hv i (mem_sortIntervals.mp hi))
  exact ⟨r, hr, hrs, hrv⟩

/-- The constructor with merge-on-add enabled never throws on valid intervals
and establishes the sorted/valid state. -/
theorem constructE_ok (parts : List (IntervalNumber × IntervalNumber × Option String))
    (h : ∀ p ∈ parts, (Interval.new p.1 p.2.1 p.2.2).valid) :
    ∃ s, constructE parts (some true) = .ok s ∧ SortedLe s.intervals ∧
      (∀ i ∈ s.intervals, i.valid) ∧ s.mergeAddedInterval = true := by
  obtain ⟨r, hr, hrs, hrv⟩ :=
    mergeIntervalsE_ok (parts.map (fun p => Interval.new p.1 p.2.1 p.2.2))
      (by
        intro i hi
        simp only [List.mem_map] at hi
        obtain ⟨p, hp, rfl⟩ := hi
        exact h p hp)
  refine ⟨⟨r, true⟩, ?_, hrs, hrv, rfl⟩
  simp [constructE, hr, except_ok_bind]

/-- `addInterval` on a valid merge-on-add set with a valid argument never
throws and re-establishes the sorted/valid state. -/
theorem addIntervalE_inv (s : IntervalSet) (a b : IntervalNumber) (nm : Option String)
    (hv : ∀ i ∈ s.intervals, i.valid) (hm : s.mergeAddedInterval = true)
    (hab : (Interval.new a b nm).valid) :
    ∃ s2, addIntervalE s a b nm = .ok s2 ∧ SortedLe s2.intervals ∧
      (∀ i ∈ s2.intervals, i.valid) ∧ s2.mergeAddedInterval = true := by
  obtain ⟨r, hr, hrs, hrv⟩ := mergeIntervalsE_ok (s.intervals ++ [Interval.new a b nm])
    (by
      intro i hi
      rcases List.mem_append.mp hi with hi | hi
      · exact hv i hi
      · simp at hi; rw [hi]; exact hab)
  refine ⟨⟨r, s.mergeAddedInterval⟩, ?_, hrs, hrv, hm⟩
  simp [addIntervalE, hm, hr, except_ok_bind]

theorem removeIntervalObj_inv (s : IntervalSet) (i : Interval)
    (hs : SortedLe s.intervals) (hv : ∀ j ∈ s.intervals, j.valid) :
    SortedLe (removeIntervalObj s i).intervals ∧
      (∀ j ∈ (removeIntervalObj s i).intervals, j.valid) ∧
      (removeIntervalObj s i).mergeAddedInterval = s.mergeAddedInterval := by
  refine ⟨?_, ?_, rfl⟩
  · exact List.Pairwise.sublist (List.filter_sublist _) hs
  · intro j hj
    exact hv j (List.mem_of_mem_filter hj)

theorem removeIntervalByName_inv (s : IntervalSet) (nm : String)
    (hs : SortedLe s.intervals) (hv : ∀ j ∈ s.intervals, j.valid) :
    SortedLe (removeIntervalByName s nm).intervals ∧
      (∀ j ∈ (removeIntervalByName s nm).intervals, j.valid) ∧
      (removeIntervalByName s nm).mergeAddedInterval = s.mergeAddedInterval := by
  refine ⟨?_, ?_, rfl⟩
  · exact List.Pairwise.sublist (List.filter_sublist _) hs
  · intro j hj
    exact hv j (List.mem_of_mem_filter hj)

end IntervalSet

/-- Validity of the structured interval an operation hands to the library. -/
def SetOp.validOp : SetOp → Prop
  | .add a b _ => a.number = b.number → (a.isClosed = true ∧ b.isClosed = true)
  | _ => True

instance : DecidablePred SetOp.validOp := fun op => by
  cases op <;> simp only [SetOp.validOp] <;> infer_instance

/-- The sorted/valid state is preserved by every operation of a run. -/
theorem foldlM_applyOpE_inv : ∀ (ops : List SetOp) (s : IntervalSet),
    IntervalSet.SortedLe s.intervals → (∀ i ∈ s.intervals, i.valid) →
    s.mergeAddedInterval = true → (∀ op ∈ ops, op.validOp) →
    ∃ s2, List.foldlM applyOpE s ops = .ok s2 ∧
      IntervalSet.SortedLe s2.intervals ∧ (∀ i ∈ s2.intervals, i.valid) ∧
      s2.mergeAddedInterval = true := by
  intro ops
  induction ops with
  | nil =>
    intro s hs hv hm _
    exact ⟨s, rfl, hs, hv, hm⟩
  | cons op ops ih =>
    intro s hs hv hm hops
    rw [List.foldlM_cons]
    match op with
    | .add a b nm =>
      obtain ⟨s1, h1, hs1, hv1, hm1⟩ := IntervalSet.addIntervalE_inv s a b nm hv hm
        (by
          intro hdeg
          have := hops (SetOp.add a b nm) (by simp)
          simp only [SetOp.validOp] at this
          simpa using this (by simpa using hdeg))
      rw [show applyOpE s (.add a b nm) = s.addIntervalE a b nm from rfl, h1,
        except_ok_bind]
      exact ih s1 hs1 hv1 hm1 (fun o ho => hops o (by simp [ho]))
    | .remove a b nm =>
      obtain ⟨hs1, hv1, hm1⟩ := IntervalSet.removeIntervalObj_inv s
        (Interval.new a b nm) hs hv
      rw [show applyOpE s (.remove a b nm) = .ok (s.removeInterval a b nm) from rfl,
        except_ok_bind]
      exact ih _ hs1 hv1 (by rw [← hm]; exact hm1) (fun o ho => hops o (by simp [ho]))
    | .removeByName nm =>
      obtain ⟨hs1, hv1, hm1⟩ := IntervalSet.removeIntervalByName_inv s nm hs hv
      rw [show applyOpE s (.removeByName nm) = .ok (s.removeIntervalByName nm) from rfl,
        except_ok_bind]
      exact ih _ hs1 hv1 (by rw [← hm]; exact hm1) (fun o ho => hops o (by simp [ho]))
    | .clearOp =>
      rw [show applyOpE s .clearOp = .ok s.clear from rfl, except_ok_bind]
      exact ih s.clear List.Pairwise.nil (by simp [IntervalSet.clear]) hm
        (fun o ho => hops o (by simp [ho]))

/-! Claim theorems. -/

/-- C1: `mergeIntervals` does not preserve the covered point set.  Merging the
overlapping pair `[1,5]` and `[2,10)` keeps the smaller closed max (the
`|| current.max.isClosed` disjunct fires although `5 > 10` is false), so the
result is just `[1,5]`: the point `7` is covered by the inputs but not by the
output, contradicting the claimed coverage equality and the claimed
"numerically larger max" selection. -/
theorem C1_merge_drops_covered_points :
    IntervalSet.mergeIntervalsE
        [Interval.new (icl 1) (icl 5) none, Interval.new (icl 2) (iop 10) none] =
      .ok [Interval.new (icl 1) (icl 5) none] ∧
    covered [Interval.new (icl 1) (icl 5) none, Interval.new (icl 2) (iop 10) none]
        (icl 7) = true ∧
    covered [Interval.new (icl 1) (icl 5) none] (icl 7) = false := by
  refine ⟨by decide, by decide, by decide⟩

/-- C2 counterexample: with merge-on-add enabled, adding `[0,10]`, `(0,10)`
and `[10,20]` leaves the stored intervals `[0,10]` and `(0,20]`, which both
contain the point `5` (and even satisfy the implementation's own `overlaps`
predicate), so the stored intervals are not pairwise non-overlapping at an
observable time. -/
theorem C2_overlap_invariant_fails :
    runOpsE []
        [.add (icl 0) (icl 10) none, .add (iop 0) (iop 10) none,
         .add (icl 10) (icl 20) none] =
      .ok ⟨[Interval.new (icl 0) (icl 10) none, Interval.new (iop 0) (icl 20) none], true⟩ ∧
    (Interval.new (icl 0) (icl 10) none).contains (icl 5) = true ∧
    (Interval.new (iop 0) (icl 20) none).contains (icl 5) = true ∧
    (Interval.new (icl 0) (icl 10) none).overlaps (Interval.new (iop 0) (icl 20) none)
      = true := by
  refine ⟨by decide, by decide, by decide, by decide⟩

/-- C2 amended claim: for every IntervalSet constructed with merge-on-add
enabled from valid structured intervals, after construction and after every
normally completing addInterval, removeInterval, removeIntervalByName, or
clear call, the stored intervals are sorted ascending by min value with a
closed min before an open min at the same value; pairwise non-overlap,
however, is not maintained. -/
theorem C2_intervals_always_sorted
    (init : List (IntervalNumber × IntervalNumber × Option String))
    (ops : List SetOp)
    (hinit : ∀ p ∈ init, (Interval.new p.1 p.2.1 p.2.2).valid)
    (hops : ∀ op ∈ ops, op.validOp) :
    ∃ s, runOpsE init ops = .ok s ∧ IntervalSet.SortedLe s.intervals := by
  obtain ⟨s0, h0, hs0, hv0, hm0⟩ := IntervalSet.constructE_ok init hinit
  obtain ⟨s2, h2, hs2, _, _⟩ := foldlM_applyOpE_inv ops s0 hs0 hv0 hm0 hops
  refine ⟨s2, ?_, hs2⟩
  rw [runOpsE, h0, except_ok_bind, h2]

/-- Witness for the C2 amended claim at a concrete run: construct with one
interval, add one, remove one, clear, and add a degenerate closed point. -/
theorem C2_intervals_always_sorted_witness :
    ∃ s, runOpsE [(icl 1, iop 5, none)]
        [.add (icl 10) (icl 20) none, .remove (icl 1) (iop 5) none,
         .clearOp, .add (icl 3) (icl 3) none] = .ok s ∧
      IntervalSet.SortedLe s.intervals :=
  C2_intervals_always_sorted _ _ (by decide) (by decide)

/-- C3: two intervals touching at a boundary with opposite closures are
merge-eligible: adding `[1,5)` then `[5,10)` under the default merge-on-add
folds them into the single stored interval `[1,10)`, and
`getIntervalsContaining(5)` returns exactly that interval. -/
theorem C3_touching_boundary_merges :
    runOpsE [] [.add (icl 1) (iop 5) none, .add (icl 5) (iop 10) none] =
      .ok ⟨[Interval.new (icl 1) (iop 10) none], true⟩ ∧
    IntervalSet.getIntervalsContaining
        ⟨[Interval.new (icl 1) (iop 10) none], true⟩ (icl 5) =
      [Interval.new (icl 1) (iop 10) none] := by
  refine ⟨by decide, by decide⟩

/-- C4: the constructor's degenerate check compares the two endpoint objects
with reference equality, so a structured `(5, 5)` built from two separately
allocated endpoints is accepted instead of rejected, while the string form
`"(5, 5)"` is still rejected by `validIntervalString`. -/
theorem C4_structured_degenerate_open_accepted :
    Interval.ofParts (iop 5) (iop 5) none false =
      .ok { a := iop 5, b := iop 5, name := "Not Specified" } ∧
    Interval.validIntervalString "(5, 5)".toList = false ∧
    Interval.toInterval "(5, 5)".toList = .error "Invalid interval string." := by
  refine ⟨by decide, by decide, by decide⟩

/-- C5: the endpoint setters only reject an assignment when the value equals
the other endpoint with BOTH sides open; assigning `b := (5, open)` on the
interval `[5, 10)` therefore succeeds and produces the state `[5, 5)`, a
degenerate point with an open end, instead of raising the claimed error. -/
theorem C5_setter_accepts_half_open_degenerate :
    Interval.setB (Interval.new (icl 5) (iop 10) none) (iop 5) =
      .ok { a := icl 5, b := iop 5, name := "Not Specified" } ∧
    ¬ Interval.valid { a := icl 5, b := iop 5, name := "Not Specified" } := by
  refine ⟨by decide, by decide⟩

/-- C6 amended claim: carving `[1,5)` out of the sole stored interval
`[-Infinity, Infinity]` leaves exactly the two intervals `[-Infinity, 1)` and
`[5, Infinity]`. -/
theorem C6_gap_on_unbounded_interval :
    IntervalSet.createIntervalGapE
        ⟨[Interval.new ⟨.negInf, true⟩ ⟨.posInf, true⟩ none], true⟩
        (Interval.new (icl 1) (iop 5) none) =
      .ok ⟨[Interval.new ⟨.negInf, true⟩ (iop 1) none,
            Interval.new (icl 5) ⟨.posInf, true⟩ none], true⟩ := by
  decide

/-- C6 counterexample: carving `[0,10]` out of the (merged) singleton set
holding `[0,10]` splits it into the invalid degenerate pieces `[0,0)` and
`(10,10]`, and the first of them still overlaps the carved interval, so the
general disjointness guarantee fails. -/
theorem C6_argument_still_overlaps_after_gap :
    IntervalSet.createIntervalGapE ⟨[Interval.new (icl 0) (icl 10) none], true⟩
        (Interval.new (icl 0) (icl 10) none) =
      .ok ⟨[Interval.new (icl 0) (iop 0) none, Interval.new (iop 10) (icl 10) none], true⟩ ∧
    (Interval.new (icl 0) (icl 10) none).overlaps (Interval.new (icl 0) (iop 0) none)
      = true := by
  refine ⟨by decide, by decide⟩

/-- C7 amended claim: on the set holding `[1,5)` and `[8,15)` built with
merge-on-add, `chainIntervals` rewrites the later interval's min to abut the
earlier max (value 5, closure inverted to closed), yielding exactly
`[1,5), [5,15)`, and turns `mergeAddedInterval` off, after which adding the
overlapping `[6,8)` no longer merges. -/
theorem C7_chain_scenario :
    (do
      let s ← runOpsE [] [.add (icl 1) (iop 5) none, .add (icl 8) (iop 15) none]
      s.chainIntervalsE) =
      .ok ⟨[Interval.new (icl 1) (iop 5) none, Interval.new (icl 5) (iop 15) none],
        false⟩ ∧
    (do
      let s ← runOpsE [] [.add (icl 1) (iop 5) none, .add (icl 8) (iop 15) none]
      let s ← s.chainIntervalsE
      s.addIntervalE (icl 6) (iop 8) none) =
      .ok ⟨[Interval.new (icl 1) (iop 5) none, Interval.new (icl 5) (iop 15) none,
            Interval.new (icl 6) (iop 8) none], false⟩ := by
  refine ⟨by decide, by decide⟩

/-- C7 counterexample: the merged set can hold the nested pair `[0,10]` and
`(0,10)` (the two adds do not merge), and on it `chainIntervals` does not
rewrite the later interval's min — the rewrite of `(0,10)`'s min to
`(10, open)` trips the setter's degenerate check and the call throws. -/
theorem C7_chain_throws_on_nested_pair :
    runOpsE [] [.add (icl 0) (icl 10) none, .add (iop 0) (iop 10) none] =
      .ok ⟨[Interval.new (icl 0) (icl 10) none, Interval.new (iop 0) (iop 10) none],
        true⟩ ∧
    IntervalSet.chainIntervalsE
        ⟨[Interval.new (icl 0) (icl 10) none, Interval.new (iop 0) (iop 10) none],
          true⟩ =
      .error "Invalid interval. Cannot exclude either minimum and maximum values if they are equal." := by
  refine ⟨by decide, by decide⟩

/-- C8: for every interval satisfying the degenerate-point invariant
(including intervals with infinite endpoints and with `a` numerically greater
than `b`), parsing its printed form restores both stored endpoints exactly and
hence an interval with the same min value, max value, and closure flags. -/
theorem C8_parse_toString_roundtrip (i : Interval) (hv : i.valid) :
    Interval.toInterval i.toStringL =
      .ok { a := i.a, b := i.b, name := "Not Specified" } ∧
    ∃ j, Interval.toInterval i.toStringL = .ok j ∧
      j.min = i.min ∧ j.max = i.max := by
  have h := toInterval_toStringL i hv
  exact ⟨h, ⟨{ a := i.a, b := i.b, name := "Not Specified" }, h, rfl, rfl⟩⟩

/-- Witness for C8 at a descending-endpoint interval `a = 10, b = 1` (printed
as "[10, 1)"). -/
theorem C8_parse_toString_roundtrip_witness :
    Interval.toInterval (Interval.toStringL ⟨icl 10, iop 1, "w"⟩) =
      .ok { a := icl 10, b := iop 1, name := "Not Specified" } ∧
    ∃ j, Interval.toInterval (Interval.toStringL ⟨icl 10, iop 1, "w"⟩) = .ok j ∧
      j.min = Interval.min ⟨icl 10, iop 1, "w"⟩ ∧
      j.max = Interval.max ⟨icl 10, iop 1, "w"⟩ :=
  C8_parse_toString_roundtrip ⟨icl 10, iop 1, "w"⟩ (by decide)

/-- C9: with merge disabled, adding `[10,15)` then `[1,5)` stores them in
insertion order (no sort, no merge happens on add), and
`getIntervalGaps([0,20))` — which merges and sorts only a working copy —
returns `[0,1)`, `[5,10)`, `[15,20)` in order; the stored sequence that the
query ran on is the unsorted insertion-order one. -/
theorem C9_gap_query_on_unsorted_set :
    (do
      let s ← IntervalSet.constructE [] (some false)
      let s ← s.addIntervalE (icl 10) (iop 15) none
      s.addIntervalE (icl 1) (iop 5) none) =
      .ok ⟨[Interval.new (icl 10) (iop 15) none, Interval.new (icl 1) (iop 5) none],
        false⟩ ∧
    IntervalSet.getIntervalGapsE
        ⟨[Interval.new (icl 10) (iop 15) none, Interval.new (icl 1) (iop 5) none],
          false⟩
        (some (Interval.new (icl 0) (iop 20) none)) =
      .ok [Interval.new (icl 0) (iop 1) none, Interval.new (icl 5) (iop 10) none,
           Interval.new (icl 15) (iop 20) none] := by
  refine ⟨by decide, by decide⟩

/-- C10: `removeInterval` matches stored intervals by exact string form and
ignores names.  The stored interval with descending endpoints `a=10, b=1`
prints as `"[10, 1)"`; an argument denoting the same point set `(1, 10]` with
ascending endpoints prints differently and removes nothing, while an argument
with the same stored order removes the interval even though the names
differ. -/
theorem C10_remove_matches_string_form :
    Interval.toStringL ⟨icl 10, iop 1, "left"⟩ = "[10, 1)".toList ∧
    Interval.toStringL ⟨iop 1, icl 10, "arg"⟩ = "(1, 10]".toList ∧
    Interval.min ⟨icl 10, iop 1, "left"⟩ = Interval.min ⟨iop 1, icl 10, "arg"⟩ ∧
    Interval.max ⟨icl 10, iop 1, "left"⟩ = Interval.max ⟨iop 1, icl 10, "arg"⟩ ∧
    (IntervalSet.removeInterval ⟨[⟨icl 10, iop 1, "left"⟩], true⟩
        (iop 1) (icl 10) (some "arg")).intervals = [⟨icl 10, iop 1, "left"⟩] ∧
    (IntervalSet.removeInterval ⟨[⟨icl 10, iop 1, "left"⟩], true⟩
        (icl 10) (iop 1) (some "other")).intervals = [] := by
  refine ⟨by decide, by decide, by decide, by decide, by decide, by decide⟩

end CJS
